import Mathlib

/-!
Shallow embedding of `src/fava/core/file.py` (reading and writing Beancount
files): entry-slice location (`find_entry_lines`), optimistic slice editing
(`get_entry_slice` / `save_entry_slice`), metadata insertion
(`next_key` / `insert_metadata_in_file`), and entry insertion with routing
options (`find_insert_position` / `insert_entry`).

Python strings are modelled as `List Char` (`Str`), a file as its decoded
text contents, and the file system as a map from filenames to contents.
The cryptographic hash `sha256_str` (external `hashlib`) is carried as an
arbitrary fingerprint function parameter, so every theorem below holds for
the real hash in particular.
-/

namespace Fava

/-- Python text (`str`) as a list of characters. -/
abbrev Str := List Char

/-- Python whitespace characters, as stripped by `str.strip()` and matched
by the regex class `\s` (ASCII range; the Unicode extras play no role in
this file). -/
def pyIsSpace (c : Char) : Bool :=
  c == ' ' || c == '\t' || c == '\n' || c == '\r' || c == '\x0b' || c == '\x0c'

/-- One step of splitting text into lines; `acc` holds the characters of
the current unfinished line in reverse. Models Python `file.readlines()`
on the decoded contents: every line keeps its terminating newline, and a
final line without a newline is kept as is. -/
def pyReadlinesAux (acc : Str) : Str → List Str
  | [] => if acc.isEmpty then [] else [acc.reverse]
  | c :: cs =>
    if c == '\n' then (acc.reverse ++ ['\n']) :: pyReadlinesAux [] cs
    else pyReadlinesAux (c :: acc) cs

/-- Python `file.readlines()` of the whole decoded contents. -/
def pyReadlines (contents : Str) : List Str := pyReadlinesAux [] contents

/-- Errors raised by the Python code: `FavaAPIException` is the domain
error of the module, `indexError` stands for an uncaught Python
`IndexError` escaping from a list access. -/
inductive PyErr where
  | favaAPI (msg : Str)
  | indexError
deriving DecidableEq

/-- The loop exit test of `find_entry_lines`:
`not line.strip() or re.match(r"\S", line[0])` — the line is empty or
whitespace-only, or its first character is not whitespace. -/
def stop_condition (line : Str) : Bool :=
  line.all pyIsSpace ||
    match line with
    | [] => true
    | c :: _ => !(pyIsSpace c)

/-- The `while True` loop of `find_entry_lines`, walking the lines after
the starting one; running off the end of the list is the `IndexError`
caught by the `try`/`except` in the source. -/
def find_entry_lines_loop : List Str → List Str
  | [] => []
  | line :: rest =>
    if stop_condition line then [] else line :: find_entry_lines_loop rest

/-- Lines of the entry starting at the 0-based index `lineno`
(`find_entry_lines`). The initial access `lines[lineno]` is outside the
`try` block, so an out-of-range start escapes as an `IndexError`. -/
def find_entry_lines (lines : List Str) (lineno : Nat) : Except PyErr (List Str) :=
  match lines[lineno]? with
  | none => Except.error PyErr.indexError
  | some first => Except.ok (first :: find_entry_lines_loop (lines.drop (lineno + 1)))

/-- Python `s.rstrip("\n")`: remove all trailing newline characters. -/
def pyRstripNl (s : Str) : Str :=
  (s.reverse.dropWhile (fun c => c == '\n')).reverse

section SliceEditor

variable (sha256_str : Str → Str)

/-- Slice of the source file for an entry (`get_entry_slice`): the entry
lines located from the 1-indexed `lineno` of the entry's metadata, joined
and stripped of trailing newlines, together with their fingerprint. -/
def get_entry_slice (contents : Str) (lineno : Nat) : Except PyErr (Str × Str) :=
  let lines := pyReadlines contents
  match find_entry_lines lines (lineno - 1) with
  | Except.error e => Except.error e
  | Except.ok entry_lines =>
    let entry_source := pyRstripNl entry_lines.flatten
    Except.ok (entry_source, sha256_str entry_source)

/-- Error message of the conflict `FavaAPIException`. -/
def changedExternallyMsg : Str := ("The file changed externally.").toList

/-- Replace the slice of an entry (`save_entry_slice`). The first
component of the result is the file contents after the call (unchanged on
every error path, since the source raises before its single write); the
second is the returned fingerprint of the new slice or the raised error. -/
def save_entry_slice (contents : Str) (lineno : Nat)
    (source_slice sha256sum : Str) : Str × Except PyErr Str :=
  let lines := pyReadlines contents
  let first_entry_line := lineno - 1
  match find_entry_lines lines first_entry_line with
  | Except.error e => (contents, Except.error e)
  | Except.ok entry_lines =>
    let entry_source := pyRstripNl entry_lines.flatten
    if sha256_str entry_source ≠ sha256sum then
      (contents, Except.error (PyErr.favaAPI changedExternallyMsg))
    else
      let newLines := lines.take first_entry_line ++ [source_slice ++ ['\n']]
        ++ lines.drop (first_entry_line + entry_lines.length)
      (newLines.flatten, Except.ok (sha256_str source_slice))

end SliceEditor

/-- Is the result the module's domain error (`FavaAPIException`)? -/
def isFavaAPIError {α : Type} : Except PyErr α → Bool
  | Except.error (PyErr.favaAPI _) => true
  | _ => false

/-- Calendar dates, modelled by their ordinal encoding (only the order on
dates matters to this module). -/
abbrev Date := Int

/-- An `InsertEntryOption` routing rule (`fava.core.fava_options`): the
compiled regular expression `re` is modelled as the account predicate it
computes. -/
structure InsertEntryOption where
  date : Date
  re : Str → Bool
  filename : Str
  lineno : Int

/-- An entry, as far as this module reads it. Modelled from the spec:
the entry/account model is external (`beancount.core.data`,
`fava.core.filters`); an entry exposes a date, an ordered list of
associated accounts, and (through the external formatter) its rendered
text `content`. -/
structure Entry where
  date : Date
  accounts : List Str
  content : Str

/-- Modelled from the spec: `get_entry_accounts` (external
`fava.core.filters`) yields the entry's ordered associated-accounts list
(reversed posting accounts for a transaction). -/
def get_entry_accounts (entry : Entry) : List Str := entry.accounts

/-- Modelled from the spec: `format_entry` and `align` are external
(`beancount.parser.printer`, `fava.core.misc`); the aligned,
trailing-whitespace-stripped rendering that `_format_entry` produces is
carried as the opaque attribute `content` of the entry. -/
def _format_entry (entry : Entry) (currency_column : Int) : Str :=
  entry.content

/-- Stable insertion into a date-descending list: the inserted element
goes before the first element whose date is not greater, so elements
with equal dates keep their original relative order. -/
def insert_by_date_desc (o : InsertEntryOption) :
    List InsertEntryOption → List InsertEntryOption
  | [] => [o]
  | p :: ps =>
    if p.date ≤ o.date then o :: p :: ps else p :: insert_by_date_desc o ps

/-- Python `sorted(insert_options, key=attrgetter("date"), reverse=True)`:
a stable sort by descending date. -/
def sort_by_date_desc : List InsertEntryOption → List InsertEntryOption
  | [] => []
  | o :: rest => insert_by_date_desc o (sort_by_date_desc rest)

/-- The inner loop of `find_insert_position` for one account: skip
options dated on or after the entry date (`continue`), return the first
remaining option whose pattern matches the account. -/
def scan_options (entry_date : Date) (account : Str) :
    List InsertEntryOption → Option InsertEntryOption
  | [] => none
  | o :: rest =>
    if entry_date ≤ o.date then scan_options entry_date account rest
    else if o.re account then some o
    else scan_options entry_date account rest

/-- The outer loop of `find_insert_position`: first account (in order)
whose scan over the sorted options hits, with its hit. -/
def first_matching_option (entry_date : Date) (accounts : List Str)
    (sorted_options : List InsertEntryOption) : Option InsertEntryOption :=
  match accounts with
  | [] => none
  | a :: rest =>
    match scan_options entry_date a sorted_options with
    | some o => some o
    | none => first_matching_option entry_date rest sorted_options

/-- Insert position for an entry (`find_insert_position`): the filename
and 0-indexed line of the first matching routing option, or the default
file and `none` (append) when nothing matches. -/
def find_insert_position (entry : Entry)
    (insert_options : List InsertEntryOption) (default_filename : Str) :
    Str × Option Int :=
  let accounts := get_entry_accounts entry
  let sorted_options := sort_by_date_desc insert_options
  match first_matching_option entry.date accounts sorted_options with
  | some o => (o.filename, some (o.lineno - 1))
  | none => (default_filename, none)

/-- Python `list.insert(i, x)`: a negative index counts from the end and
the effective position is clamped into `[0, len]`. -/
def pyInsertAt {α : Type} (l : List α) (i : Int) (x : α) : List α :=
  let n : Nat := if i < 0 then (l.length + i).toNat else min i.toNat l.length
  l.take n ++ x :: l.drop n

/-- The file system: a map from filenames to decoded contents, with
pointwise update on write. -/
def updateFs (fs : Str → Str) (filename contents : Str) : Str → Str :=
  fun name => if name = filename then contents else fs name

/-- Insert an entry (`insert_entry`): resolve the position, rewrite the
target file, and shift the line numbers of the routing options that sit
after the insertion point. In the append branch the source extends the
line list character-wise (`contents += "\n" + content`); since the file
is then written by concatenation (`writelines`), the resulting bytes are
the old contents followed by a blank separator and the new text, which
is how the branch is modelled. -/
def insert_entry (entry : Entry) (default_filename : Str)
    (insert_options : List InsertEntryOption) (currency_column : Int)
    (fs : Str → Str) : (Str → Str) × List InsertEntryOption :=
  let pos := find_insert_position entry insert_options default_filename
  let filename := pos.1
  let content := _format_entry entry currency_column
  let contents := pyReadlines (fs filename)
  match pos.2 with
  | none =>
    (updateFs fs filename (contents.flatten ++ '\n' :: content), insert_options)
  | some lineno =>
    let added : Int := content.count '\n' + 1
    (updateFs fs filename (pyInsertAt contents lineno (content ++ ['\n'])).flatten,
      insert_options.map (fun option =>
        if option.filename = filename ∧ option.lineno > lineno then
          { option with lineno := option.lineno + added }
        else option))

/-- Character of a decimal digit, as written by a Python f-string. -/
def digitChar : Nat → Char
  | 0 => '0' | 1 => '1' | 2 => '2' | 3 => '3' | 4 => '4'
  | 5 => '5' | 6 => '6' | 7 => '7' | 8 => '8' | _ => '9'

/-- Fuelled decimal rendering (most significant digit first, digits
accumulated on the right); fuel `n + 1` always suffices for `n`. -/
def natDigitsCore : Nat → Nat → Str → Str
  | 0, _, acc => acc
  | fuel + 1, n, acc =>
    if n < 10 then digitChar (n % 10) :: acc
    else natDigitsCore fuel (n / 10) (digitChar (n % 10) :: acc)

/-- Decimal rendering of a natural number, as a Python f-string writes
it. -/
def natDigits (n : Nat) : Str := natDigitsCore (n + 1) n []

/-- The string `f"{basekey}-{i}"` tried by `next_key`. -/
def format_key (basekey : Str) (i : Nat) : Str :=
  basekey ++ '-' :: natDigits i

/-- The `while` loop of `next_key`, trying `basekey-i`, `basekey-(i+1)`,
… until a key not present is found; the fuel bounds the search and is
chosen large enough that it is never exhausted (more candidates than
existing keys). -/
def next_key_loop (basekey : Str) (keys : List Str) : Nat → Nat → Str
  | 0, i => format_key basekey i
  | fuel + 1, i =>
    if format_key basekey i ∈ keys then next_key_loop basekey keys fuel (i + 1)
    else format_key basekey i

/-- Next unused key for `basekey` (`next_key`); `keys` is the key set of
the entry's metadata mapping, modelled by the list of its keys. -/
def next_key (basekey : Str) (keys : List Str) : Str :=
  if basekey ∈ keys then next_key_loop basekey keys (keys.length + 1) 2
  else basekey

/-- Two spaces, the default metadata indentation (`DEFAULT_INDENT`). -/
def DEFAULT_INDENT : Str := [' ', ' ']

/-- Leading whitespace of a line (`leading_space`):
`line[: len(line) - len(line.lstrip())] or DEFAULT_INDENT`. -/
def leading_space (line : Str) : Str :=
  let ws := line.takeWhile pyIsSpace
  if ws = [] then DEFAULT_INDENT else ws

/-- Insert a `key: "value"` metadata line below a 1-indexed header line
(`insert_metadata_in_file`), indented like the line that follows the
header (`contents[lineno]`, caught `IndexError` falling back to the
default; the source's second `or DEFAULT_INDENT` is redundant because
`leading_space` never returns an empty string). -/
def insert_metadata_in_file (contents : Str) (lineno : Nat)
    (key value : Str) : Str :=
  let lines := pyReadlines contents
  let indent := match lines[lineno]? with
    | some next_line => leading_space next_line
    | none => DEFAULT_INDENT
  (pyInsertAt lines (lineno : Int)
    (indent ++ key ++ ':' :: ' ' :: '"' :: value ++ ['"', '\n'])).flatten

/-- Indentation choice in the words of the spec: the leading-whitespace
prefix of the line immediately following the header line, falling back to
the 2-space default when that line does not exist or has no leading
whitespace. -/
def spec_following_line_indent (lines : List Str) (lineno : Nat) : Str :=
  match lines[lineno]? with
  | none => DEFAULT_INDENT
  | some next_line =>
    if next_line.takeWhile pyIsSpace = [] then DEFAULT_INDENT
    else next_line.takeWhile pyIsSpace

/-- The pattern `Expenses:.*` of the spec's examples: compiled by
`re.compile` and used through `re.match`, it holds exactly of the
accounts that start with `Expenses:`. -/
def expensesRe : Str → Bool :=
  fun s => List.isPrefixOf (("Expenses:").toList) s

/-- Example rule: `(pattern="Expenses:.*", date=2020-01-01, file=A, line=10)`. -/
def optA10 : InsertEntryOption :=
  { date := 20200101, re := expensesRe, filename := ['A'], lineno := 10 }

/-- Example rule: `(pattern="Expenses:.*", date=2020-06-01, file=B, line=5)`. -/
def optB5 : InsertEntryOption :=
  { date := 20200601, re := expensesRe, filename := ['B'], lineno := 5 }

/-- Example rule for the line-shift boundary: file A, line 5. -/
def optA5 : InsertEntryOption :=
  { date := 20200101, re := expensesRe, filename := ['A'], lineno := 5 }

/-- Example entry dated 2020-07-01 on `Expenses:Food`. -/
def entryJul : Entry :=
  { date := 20200701, accounts := [("Expenses:Food").toList], content := [] }

/-- Example entry dated 2020-07-01 whose formatted content spans three
lines (three newline characters, so `addedLines = 4`). -/
def entryJul3 : Entry :=
  { date := 20200701, accounts := [("Expenses:Food").toList],
    content := ("a\nb\nc\n").toList }

/-- Example entry dated 2020-01-01 (older than every example rule). -/
def entryJan : Entry :=
  { date := 20200101, accounts := [("Expenses:Food").toList],
    content := ("e\n").toList }

theorem flatten_pyReadlinesAux (s : Str) : ∀ acc : Str,
    (pyReadlinesAux acc s).flatten = acc.reverse ++ s := by
  induction s with
  | nil =>
    intro acc
    cases acc with
    | nil => simp [pyReadlinesAux]
    | cons a as => simp [pyReadlinesAux]
  | cons c cs ih =>
    intro acc
    by_cases h : c = '\n'
    · subst h
      simp [pyReadlinesAux, ih]
    · simp [pyReadlinesAux, h, ih]

/-- Joining the lines of `readlines` gives back the file contents. -/
theorem flatten_pyReadlines (contents : Str) :
    (pyReadlines contents).flatten = contents := by
  simpa using flatten_pyReadlinesAux contents []

theorem pyReadlinesAux_line_structure (s : Str) : ∀ acc : Str, '\n' ∉ acc →
    s.getLast? = some '\n' →
    ∀ l ∈ pyReadlinesAux acc s, ∃ m, l = m ++ ['\n'] ∧ '\n' ∉ m := by
  induction s with
  | nil => intro acc _ hlast; simp at hlast
  | cons c cs ih =>
    intro acc hacc hlast l hl
    by_cases h : c = '\n'
    · subst h
      simp only [pyReadlinesAux, beq_self_eq_true, if_pos, List.mem_cons] at hl
      rcases hl with rfl | hl
      · exact ⟨acc.reverse, rfl, fun hmem => hacc (List.mem_reverse.mp hmem)⟩
      · cases cs with
        | nil => simp [pyReadlinesAux] at hl
        | cons d ds =>
          have : (d :: ds).getLast? = some '\n' := by
            rwa [List.getLast?_cons_cons] at hlast
          exact ih [] (by simp) this l hl
    · have hne : cs ≠ [] := by
        intro hnil
        subst hnil
        simp [List.getLast?] at hlast
        exact h hlast
      have hlast' : cs.getLast? = some '\n' := by
        cases cs with
        | nil => exact absurd rfl hne
        | cons d ds => rwa [List.getLast?_cons_cons] at hlast
      have hstep : pyReadlinesAux acc (c :: cs) = pyReadlinesAux (c :: acc) cs := by
        simp [pyReadlinesAux, h]
      rw [hstep] at hl
      have hacc' : '\n' ∉ c :: acc := by
        intro hmem
        rcases List.mem_cons.mp hmem with h1 | h1
        · exact h h1.symm
        · exact hacc h1
      exact ih (c :: acc) hacc' hlast' l hl

/-- Every line of `readlines` of contents ending in a newline itself ends
in a newline and contains no other newline. -/
theorem pyReadlines_line_structure (contents : Str)
    (h : contents.getLast? = some '\n') :
    ∀ l ∈ pyReadlines contents, ∃ m, l = m ++ ['\n'] ∧ '\n' ∉ m :=
  pyReadlinesAux_line_structure contents [] (by simp) h

theorem find_entry_lines_loop_eq_takeWhile (l : List Str) :
    find_entry_lines_loop l = l.takeWhile (fun line => !stop_condition line) := by
  induction l with
  | nil => rfl
  | cons line rest ih =>
    by_cases h : stop_condition line
    · simp [find_entry_lines_loop, List.takeWhile_cons, h]
    · simp [find_entry_lines_loop, List.takeWhile_cons, h, ih]

/-- Helper form of the boundary scan on a valid start index. -/
theorem find_entry_lines_ok (lines : List Str) (lineno : Nat)
    (h : lineno < lines.length) :
    find_entry_lines lines lineno =
      Except.ok (lines[lineno] ::
        (lines.drop (lineno + 1)).takeWhile (fun line => !stop_condition line)) := by
  simp [find_entry_lines, List.getElem?_eq_getElem h, find_entry_lines_loop_eq_takeWhile]

theorem pyRstripNl_append_newline (u m : Str) (hm : m ≠ []) (hnl : '\n' ∉ m) :
    pyRstripNl (u ++ (m ++ ['\n'])) = u ++ m := by
  obtain ⟨a, t, hat⟩ := List.exists_cons_of_ne_nil (fun h => hm (List.reverse_eq_nil_iff.mp h) : m.reverse ≠ [])
  have ha : a ∈ m := by
    have : a ∈ m.reverse := by rw [hat]; exact List.mem_cons_self a t
    exact List.mem_reverse.mp this
  have hane : (a == '\n') = false := by
    simp only [beq_eq_false_iff_ne, ne_eq]
    intro h; subst h; exact hnl ha
  have hrev : (u ++ (m ++ ['\n'])).reverse = '\n' :: (m.reverse ++ u.reverse) := by
    simp
  unfold pyRstripNl
  rw [hrev, List.dropWhile_cons]
  simp only [beq_self_eq_true, if_true]
  rw [hat, List.cons_append, List.dropWhile_cons, hane]
  simp only [Bool.false_eq_true, if_false]
  rw [← List.cons_append, ← hat]
  simp

theorem pyRstripNl_single_newline : pyRstripNl ['\n'] = [] := by decide

/-- Inversion of a successful boundary scan. -/
theorem find_entry_lines_ok_inv (lines : List Str) (lineno : Nat) (el : List Str)
    (h : find_entry_lines lines lineno = Except.ok el) :
    ∃ hlt : lineno < lines.length,
      el = lines[lineno] ::
        (lines.drop (lineno + 1)).takeWhile (fun line => !stop_condition line) := by
  unfold find_entry_lines at h
  cases hidx : lines[lineno]? with
  | none => rw [hidx] at h; exact absurd h (by simp)
  | some fl =>
    rw [hidx] at h
    obtain ⟨hlt, hfl⟩ := List.getElem?_eq_some.mp hidx
    refine ⟨hlt, ?_⟩
    simp only [Except.ok.injEq] at h
    rw [← h, find_entry_lines_loop_eq_takeWhile, hfl]

/-- The located entry lines are the contiguous segment of `lines` between
`lineno` (inclusive) and `lineno + length` (exclusive). -/
theorem entry_lines_segment (lines : List Str) (lineno : Nat) (p : Str → Bool)
    (hlt : lineno < lines.length) :
    lines = lines.take lineno
      ++ (lines[lineno] :: (lines.drop (lineno + 1)).takeWhile p)
      ++ lines.drop (lineno + (lines[lineno] :: (lines.drop (lineno + 1)).takeWhile p).length) := by
  obtain ⟨t, ht⟩ := List.takeWhile_prefix (l := lines.drop (lineno + 1)) p
  have hdrop : lines.drop lineno
      = (lines[lineno] :: (lines.drop (lineno + 1)).takeWhile p) ++ t := by
    rw [List.drop_eq_getElem_cons hlt, List.cons_append, ht]
  have hT : t = lines.drop
      (lineno + (lines[lineno] :: (lines.drop (lineno + 1)).takeWhile p).length) := by
    have h1 : ((lines[lineno] :: (lines.drop (lineno + 1)).takeWhile p) ++ t).drop
        (lines[lineno] :: (lines.drop (lineno + 1)).takeWhile p).length = t :=
      List.drop_left _ _
    rw [← hdrop] at h1
    rw [List.drop_drop] at h1
    rw [← h1, Nat.add_comm]
  conv_lhs => rw [← List.take_append_drop lineno lines, hdrop, hT]
  rw [List.append_assoc]

/-- Restoring the trailing newline after the `rstrip("\n")` of
`get_entry_slice` is the identity on the joined entry lines, provided
every entry line ends in exactly one newline, or the entry is the single
blank line it started on. -/
theorem rstrip_flatten_newline (first : Str) (tw : List Str)
    (hstruct : ∀ l ∈ first :: tw, ∃ m, l = m ++ ['\n'] ∧ '\n' ∉ m)
    (htw : ∀ l ∈ tw, stop_condition l = false) :
    pyRstripNl (first :: tw).flatten ++ ['\n'] = (first :: tw).flatten := by
  by_cases htwnil : tw = []
  · subst htwnil
    obtain ⟨m, hmeq, hmnl⟩ := hstruct first (List.mem_cons_self first [])
    by_cases hm : m = []
    · subst hm
      simp only [List.nil_append] at hmeq
      simp [hmeq, pyRstripNl_single_newline]
    · have : (first :: ([] : List Str)).flatten = [] ++ (m ++ ['\n']) := by
        simp [hmeq]
      rw [this, pyRstripNl_append_newline [] m hm hmnl]
      simp
  · have htwne : tw ≠ [] := htwnil
    have hlastmem : tw.getLast htwne ∈ tw := List.getLast_mem htwne
    obtain ⟨m, hmeq, hmnl⟩ := hstruct (tw.getLast htwne)
      (List.mem_cons_of_mem first hlastmem)
    have hm : m ≠ [] := by
      intro hmnil
      subst hmnil
      simp only [List.nil_append] at hmeq
      have := htw _ hlastmem
      rw [hmeq] at this
      simp [stop_condition, pyIsSpace] at this
    have hsplit : tw.dropLast ++ [tw.getLast htwne] = tw :=
      List.dropLast_append_getLast htwne
    have hflat : (first :: tw).flatten
        = (first ++ tw.dropLast.flatten) ++ (m ++ ['\n']) := by
      conv_lhs => rw [← hsplit]
      simp [hmeq]
    rw [hflat, pyRstripNl_append_newline _ m hm hmnl, List.append_assoc]

/-- C2 (amended): reading an entry slice and immediately writing it back
with the returned text and fingerprint leaves the file byte-for-byte
unchanged, for every fingerprint function and every file contents that
ends in a newline (without that proviso the claim fails: a final entry
line lacking its newline gains one, see the counterexample). -/
theorem slice_roundtrip (sha256_str : Str → Str) (contents : Str) (lineno : Nat)
    (src fp : Str) (hnl : contents.getLast? = some '\n')
    (hget : get_entry_slice sha256_str contents lineno = Except.ok (src, fp)) :
    save_entry_slice sha256_str contents lineno src fp
      = (contents, Except.ok (sha256_str src)) := by
  simp only [get_entry_slice] at hget
  cases hfind : find_entry_lines (pyReadlines contents) (lineno - 1) with
  | error e => rw [hfind] at hget; exact absurd hget (by simp)
  | ok el =>
    rw [hfind] at hget
    simp only [Except.ok.injEq, Prod.mk.injEq] at hget
    obtain ⟨hsrc, hfp⟩ := hget
    obtain ⟨hlt, hel⟩ := find_entry_lines_ok_inv _ _ _ hfind
    subst hel
    have hstruct : ∀ l ∈ (pyReadlines contents)[lineno - 1] ::
        ((pyReadlines contents).drop (lineno - 1 + 1)).takeWhile
          (fun line => !stop_condition line),
        ∃ m, l = m ++ ['\n'] ∧ '\n' ∉ m := by
      intro l hl
      apply pyReadlines_line_structure contents hnl
      rcases List.mem_cons.mp hl with rfl | hl
      · exact List.getElem_mem hlt
      · have hpre := List.takeWhile_prefix
          (l := (pyReadlines contents).drop (lineno - 1 + 1))
          (fun line => !stop_condition line)
        exact (List.drop_sublist _ _).subset (hpre.sublist.subset hl)
    have htw : ∀ l ∈ ((pyReadlines contents).drop (lineno - 1 + 1)).takeWhile
        (fun line => !stop_condition line), stop_condition l = false := by
      intro l hl
      have := List.mem_takeWhile_imp hl
      simpa using this
    have hrestore : src ++ ['\n'] = ((pyReadlines contents)[lineno - 1] ::
        ((pyReadlines contents).drop (lineno - 1 + 1)).takeWhile
          (fun line => !stop_condition line)).flatten := by
      rw [← hsrc]
      exact rstrip_flatten_newline _ _ hstruct htw
    simp only [save_entry_slice, hfind]
    rw [if_neg (not_not_intro hfp)]
    refine Prod.ext ?_ rfl
    conv_rhs => rw [← flatten_pyReadlines contents,
      entry_lines_segment (pyReadlines contents) (lineno - 1)
        (fun line => !stop_condition line) hlt]
    have hr2 : src ++ ['\n'] = (pyReadlines contents)[lineno - 1] ++
        (((pyReadlines contents).drop (lineno - 1 + 1)).takeWhile
          (fun line => !stop_condition line)).flatten := by
      simpa using hrestore
    simp only [List.flatten_append, List.flatten_cons, List.flatten_nil,
      List.append_nil, ← List.append_assoc]
    rw [List.append_assoc ((pyReadlines contents).take (lineno - 1)).flatten src ['\n'],
      hr2]
    simp [List.append_assoc]

/-- C2 witness: a concrete read/write round trip on the file
`"a\n b\n\nc\n"` at entry start line 1. -/
theorem slice_roundtrip_witness :
    save_entry_slice (fun s => s) (("a\n b\n\nc\n").toList) 1
        (("a\n b").toList) (("a\n b").toList)
      = (("a\n b\n\nc\n").toList, Except.ok (("a\n b").toList)) :=
  slice_roundtrip (fun s => s) (("a\n b\n\nc\n").toList) 1
    (("a\n b").toList) (("a\n b").toList) rfl rfl

/-- C2 counterexample to the unrestricted claim: for the one-line file
`"x"` with no trailing newline, the round trip rewrites the file to
`"x\n"`, which differs from the original contents. -/
theorem slice_roundtrip_counterexample :
    get_entry_slice (fun s => s) ['x'] 1 = Except.ok (['x'], ['x']) ∧
    save_entry_slice (fun s => s) ['x'] 1 ['x'] ['x']
      = (['x', '\n'], Except.ok ['x']) ∧
    (['x', '\n'] : Str) ≠ ['x'] :=
  ⟨rfl, rfl, by decide⟩

/-- C3: whenever the fingerprint of the re-derived current slice (located
exactly as `get_entry_slice` locates it) differs from the caller-supplied
`sha256sum`, `save_entry_slice` fails with the `FavaAPIException`
conflict error and the file contents are unchanged — the check happens
before the single write. -/
theorem save_entry_slice_conflict (sha256_str : Str → Str) (contents : Str)
    (lineno : Nat) (source_slice sha256sum cur fp : Str)
    (hget : get_entry_slice sha256_str contents lineno = Except.ok (cur, fp))
    (hne : fp ≠ sha256sum) :
    save_entry_slice sha256_str contents lineno source_slice sha256sum
      = (contents, Except.error (PyErr.favaAPI changedExternallyMsg)) := by
  simp only [get_entry_slice] at hget
  cases hfind : find_entry_lines (pyReadlines contents) (lineno - 1) with
  | error e => rw [hfind] at hget; exact absurd hget (by simp)
  | ok el =>
    rw [hfind] at hget
    simp only [Except.ok.injEq, Prod.mk.injEq] at hget
    obtain ⟨_, hfp⟩ := hget
    simp only [save_entry_slice, hfind]
    rw [if_pos (by rw [hfp]; exact hne)]

/-- C3 witness: a stale fingerprint `"b"` for the file `"a\n"` (current
slice fingerprint `"a"`) is rejected with the conflict error, writing
nothing. -/
theorem save_entry_slice_conflict_witness :
    save_entry_slice (fun s => s) ['a', '\n'] 1 ['q'] ['b']
      = (['a', '\n'], Except.error (PyErr.favaAPI changedExternallyMsg)) :=
  save_entry_slice_conflict (fun s => s) ['a', '\n'] 1 ['q'] ['b'] ['a'] ['a']
    rfl (by decide)

/-- C9 (amended): when the recorded start line is past the end of the
file's line list, `get_entry_slice` and `save_entry_slice` surface the
uncaught Python `IndexError` of the initial `lines[lineno]` access — a
crash, not the `FavaAPIException` domain error; the file is not written. -/
theorem get_entry_slice_out_of_range (sha256_str : Str → Str) (contents : Str)
    (lineno : Nat) (source_slice sha256sum : Str)
    (h : (pyReadlines contents).length ≤ lineno - 1) :
    get_entry_slice sha256_str contents lineno = Except.error PyErr.indexError ∧
    save_entry_slice sha256_str contents lineno source_slice sha256sum
      = (contents, Except.error PyErr.indexError) := by
  have hfind : find_entry_lines (pyReadlines contents) (lineno - 1)
      = Except.error PyErr.indexError := by
    unfold find_entry_lines
    rw [List.getElem?_eq_none h]
  constructor
  · simp only [get_entry_slice, hfind]
  · simp only [save_entry_slice, hfind]

/-- C9 counterexample to the claim as stated: for the one-line file
`"x\n"` and recorded line 5, the slice lookup fails with the uncaught
`IndexError`, not with the module's domain error. -/
theorem get_entry_slice_out_of_range_counterexample :
    get_entry_slice (fun s => s) ['x', '\n'] 5 = Except.error PyErr.indexError ∧
    isFavaAPIError (get_entry_slice (fun s => s) ['x', '\n'] 5) = false :=
  ⟨rfl, rfl⟩

/-- C9 witness: the amended statement at the same concrete input. -/
theorem get_entry_slice_out_of_range_witness :
    get_entry_slice (fun s => s) ['x', '\n'] 5 = Except.error PyErr.indexError ∧
    save_entry_slice (fun s => s) ['x', '\n'] 5 ['q'] ['b']
      = (['x', '\n'], Except.error PyErr.indexError) :=
  get_entry_slice_out_of_range (fun s => s) ['x', '\n'] 5 ['q'] ['b'] (by decide)

/-- C5: for every list of lines and every valid 0-indexed start index,
`find_entry_lines` returns the line at the start index followed by the
greedy run of subsequent lines up to (and excluding) the first line that
is blank or starts with a non-whitespace character; in particular the
result contains at least the starting line. -/
theorem find_entry_lines_spec (lines : List Str) (lineno : Nat)
    (h : lineno < lines.length) :
    find_entry_lines lines lineno =
      Except.ok (lines[lineno] ::
        (lines.drop (lineno + 1)).takeWhile (fun line => !stop_condition line)) :=
  find_entry_lines_ok lines lineno h

/-- C5 witness: the four-line example file; the scan from line 0 returns
exactly the first two lines. -/
theorem find_entry_lines_spec_witness :
    find_entry_lines [("2020-01-01 open Assets:Cash\n").toList,
        ("  note: \"x\"\n").toList, ("\n").toList,
        ("2020-01-02 open Assets:Bank\n").toList] 0
      = Except.ok [("2020-01-01 open Assets:Cash\n").toList,
        ("  note: \"x\"\n").toList] :=
  (find_entry_lines_spec [("2020-01-01 open Assets:Cash\n").toList,
      ("  note: \"x\"\n").toList, ("\n").toList,
      ("2020-01-02 open Assets:Bank\n").toList] 0 (by decide)).trans (by rfl)

theorem mem_insert_by_date_desc (o x : InsertEntryOption)
    (l : List InsertEntryOption) :
    x ∈ insert_by_date_desc o l ↔ x = o ∨ x ∈ l := by
  induction l with
  | nil => simp [insert_by_date_desc]
  | cons p ps ih =>
    by_cases h : p.date ≤ o.date
    · simp [insert_by_date_desc, h]
    · simp only [insert_by_date_desc, h, if_false, List.mem_cons, ih]
      tauto

theorem mem_sort_by_date_desc (x : InsertEntryOption)
    (l : List InsertEntryOption) :
    x ∈ sort_by_date_desc l ↔ x ∈ l := by
  induction l with
  | nil => simp [sort_by_date_desc]
  | cons o rest ih =>
    simp [sort_by_date_desc, mem_insert_by_date_desc, ih]

theorem pairwise_insert_by_date_desc (o : InsertEntryOption)
    (l : List InsertEntryOption)
    (h : l.Pairwise (fun a b => b.date ≤ a.date)) :
    (insert_by_date_desc o l).Pairwise (fun a b => b.date ≤ a.date) := by
  induction l with
  | nil => simp [insert_by_date_desc]
  | cons p ps ih =>
    rcases List.pairwise_cons.mp h with ⟨hp, hps⟩
    by_cases hle : p.date ≤ o.date
    · simp only [insert_by_date_desc, hle, if_true]
      refine List.pairwise_cons.mpr ⟨?_, h⟩
      intro x hx
      rcases List.mem_cons.mp hx with rfl | hx
      · exact hle
      · exact le_trans (hp x hx) hle
    · simp only [insert_by_date_desc, hle, if_false]
      refine List.pairwise_cons.mpr ⟨?_, ih hps⟩
      intro x hx
      rcases (mem_insert_by_date_desc o x ps).mp hx with rfl | hx
      · exact le_of_not_le hle
      · exact hp x hx

theorem pairwise_sort_by_date_desc (l : List InsertEntryOption) :
    (sort_by_date_desc l).Pairwise (fun a b => b.date ≤ a.date) := by
  induction l with
  | nil => simp [sort_by_date_desc]
  | cons o rest ih => exact pairwise_insert_by_date_desc o _ ih

theorem scan_options_some (entry_date : Date) (account : Str)
    (l : List InsertEntryOption) (o : InsertEntryOption)
    (h : scan_options entry_date account l = some o) :
    o ∈ l ∧ o.date < entry_date ∧ o.re account = true := by
  induction l with
  | nil => exact absurd h (by simp [scan_options])
  | cons p ps ih =>
    by_cases hd : entry_date ≤ p.date
    · rw [scan_options, if_pos hd] at h
      rcases ih h with ⟨hmem, hrest⟩
      exact ⟨List.mem_cons_of_mem p hmem, hrest⟩
    · rw [scan_options, if_neg hd] at h
      by_cases hre : p.re account
      · rw [if_pos hre] at h
        simp only [Option.some.injEq] at h
        subst h
        exact ⟨List.mem_cons_self p ps, lt_of_not_le hd, hre⟩
      · rw [if_neg hre] at h
        rcases ih h with ⟨hmem, hrest⟩
        exact ⟨List.mem_cons_of_mem p hmem, hrest⟩

theorem scan_options_none (entry_date : Date) (account : Str)
    (l : List InsertEntryOption)
    (h : scan_options entry_date account l = none) :
    ∀ o ∈ l, o.date < entry_date → o.re account = false := by
  induction l with
  | nil => simp
  | cons p ps ih =>
    intro o hmem hlt
    by_cases hd : entry_date ≤ p.date
    · rw [scan_options, if_pos hd] at h
      rcases List.mem_cons.mp hmem with rfl | hmem
      · exact absurd hlt (not_lt.mpr hd)
      · exact ih h o hmem hlt
    · rw [scan_options, if_neg hd] at h
      by_cases hre : p.re account
      · rw [if_pos hre] at h
        exact absurd h (by simp)
      · rw [if_neg hre] at h
        rcases List.mem_cons.mp hmem with rfl | hmem
        · exact Bool.eq_false_iff.mpr hre
        · exact ih h o hmem hlt

theorem scan_options_none_of_no_match (entry_date : Date) (account : Str)
    (l : List InsertEntryOption)
    (h : ∀ o ∈ l, entry_date ≤ o.date ∨ o.re account = false) :
    scan_options entry_date account l = none := by
  induction l with
  | nil => rfl
  | cons p ps ih =>
    have hps : scan_options entry_date account ps = none :=
      ih fun o hmem => h o (List.mem_cons_of_mem p hmem)
    by_cases hd : entry_date ≤ p.date
    · rw [scan_options, if_pos hd]; exact hps
    · rcases h p (List.mem_cons_self p ps) with hd' | hre
      · exact absurd hd' hd
      · rw [scan_options, if_neg hd, if_neg (by simp [hre])]
        exact hps

/-- The first hit of the scan of a date-descending list has the maximal
date among all eligible matches. -/
theorem scan_options_max_date (entry_date : Date) (account : Str)
    (l : List InsertEntryOption) (o : InsertEntryOption)
    (hsorted : l.Pairwise (fun a b => b.date ≤ a.date))
    (h : scan_options entry_date account l = some o) :
    ∀ o' ∈ l, o'.date < entry_date → o'.re account = true → o'.date ≤ o.date := by
  induction l with
  | nil => exact absurd h (by simp [scan_options])
  | cons p ps ih =>
    rcases List.pairwise_cons.mp hsorted with ⟨hp, hps⟩
    intro o' hmem hlt hre
    by_cases hd : entry_date ≤ p.date
    · rw [scan_options, if_pos hd] at h
      rcases List.mem_cons.mp hmem with rfl | hmem
      · exact absurd hlt (not_lt.mpr hd)
      · exact ih hps h o' hmem hlt hre
    · rw [scan_options, if_neg hd] at h
      by_cases hre' : p.re account
      · rw [if_pos hre'] at h
        simp only [Option.some.injEq] at h
        subst h
        rcases List.mem_cons.mp hmem with rfl | hmem
        · exact le_refl _
        · exact hp o' hmem
      · rw [if_neg hre'] at h
        rcases List.mem_cons.mp hmem with rfl | hmem
        · exact absurd hre (by simp [hre'])
        · exact ih hps h o' hmem hlt hre

theorem first_matching_option_some (entry_date : Date) (accounts : List Str)
    (sorted_options : List InsertEntryOption) (o : InsertEntryOption)
    (h : first_matching_option entry_date accounts sorted_options = some o) :
    ∃ (k : Nat) (a : Str), accounts[k]? = some a ∧
      scan_options entry_date a sorted_options = some o ∧
      ∀ (k' : Nat) (a' : Str), k' < k → accounts[k']? = some a' →
        scan_options entry_date a' sorted_options = none := by
  induction accounts with
  | nil => exact absurd h (by simp [first_matching_option])
  | cons a rest ih =>
    cases hscan : scan_options entry_date a sorted_options with
    | some o' =>
      rw [first_matching_option, hscan] at h
      simp only [Option.some.injEq] at h
      subst h
      refine ⟨0, a, by simp, hscan, ?_⟩
      intro k' a' hk' _
      exact absurd hk' (Nat.not_lt_zero k')
    | none =>
      rw [first_matching_option, hscan] at h
      rcases ih h with ⟨k, a', ha', hsc, hprev⟩
      refine ⟨k + 1, a', by simpa using ha', hsc, ?_⟩
      intro k' a'' hk' hidx
      cases k' with
      | zero =>
        simp only [List.getElem?_cons_zero, Option.some.injEq] at hidx
        rw [← hidx]
        exact hscan
      | succ k'' =>
        simp only [List.getElem?_cons_succ] at hidx
        exact hprev k'' a'' (Nat.lt_of_succ_lt_succ hk') hidx

theorem first_matching_option_none (entry_date : Date) (accounts : List Str)
    (sorted_options : List InsertEntryOption)
    (h : ∀ a ∈ accounts, scan_options entry_date a sorted_options = none) :
    first_matching_option entry_date accounts sorted_options = none := by
  induction accounts with
  | nil => rfl
  | cons a rest ih =>
    rw [first_matching_option, h a (List.mem_cons_self a rest)]
    exact ih fun a' hmem => h a' (List.mem_cons_of_mem a hmem)

/-- C4: a successful resolution returns `(option.filename, lineno − 1)`
of an option that is strictly before the entry's date and matches some
associated account; no earlier account has any eligible match (account
order is the primary priority), and among the eligible options matching
that account the returned one has the most recent date. Options dated on
or after the entry's date are never selected. -/
theorem find_insert_position_priority (entry : Entry)
    (insert_options : List InsertEntryOption) (default_filename F : Str)
    (p : Int)
    (h : find_insert_position entry insert_options default_filename
      = (F, some p)) :
    ∃ o ∈ insert_options, o.filename = F ∧ p = o.lineno - 1 ∧
      o.date < entry.date ∧
      ∃ (k : Nat) (a : Str), (get_entry_accounts entry)[k]? = some a ∧ o.re a = true ∧
        (∀ (k' : Nat) (a' : Str), k' < k → (get_entry_accounts entry)[k']? = some a' →
          ∀ o' ∈ insert_options, o'.date < entry.date → o'.re a' = false) ∧
        (∀ o' ∈ insert_options, o'.date < entry.date → o'.re a = true →
          o'.date ≤ o.date) := by
  simp only [find_insert_position] at h
  cases hfm : first_matching_option entry.date (get_entry_accounts entry)
      (sort_by_date_desc insert_options) with
  | none => rw [hfm] at h; exact absurd h (by simp)
  | some o =>
    rw [hfm] at h
    simp only [Prod.mk.injEq, Option.some.injEq] at h
    obtain ⟨hF, hp⟩ := h
    rcases first_matching_option_some _ _ _ _ hfm with ⟨k, a, ha, hscan, hprev⟩
    rcases scan_options_some _ _ _ _ hscan with ⟨hmem, hlt, hre⟩
    refine ⟨o, (mem_sort_by_date_desc o insert_options).mp hmem, hF, hp.symm,
      hlt, k, a, ha, hre, ?_, ?_⟩
    · intro k' a' hk' hidx o' hmem' hlt'
      exact scan_options_none _ _ _ (hprev k' a' hk' hidx) o'
        ((mem_sort_by_date_desc o' insert_options).mpr hmem') hlt'
    · intro o' hmem' hlt' hre'
      exact scan_options_max_date entry.date a _ o
        (pairwise_sort_by_date_desc insert_options) hscan o'
        ((mem_sort_by_date_desc o' insert_options).mpr hmem') hlt' hre'

/-- C4 witness: the routing-priority example. With the rules `optA10`
(2020-01-01, file A, line 10) and `optB5` (2020-06-01, file B, line 5)
and the entry `entryJul` (2020-07-01, `Expenses:Food`), the resolver
returns `(B, 4)`. -/
theorem find_insert_position_priority_witness :
    find_insert_position entryJul [optA10, optB5] (("main").toList)
      = (['B'], some 4) ∧
    (∃ o ∈ [optA10, optB5],
      o.filename = ['B'] ∧ (4 : Int) = o.lineno - 1 ∧
      o.date < entryJul.date ∧
      ∃ (k : Nat) (a : Str),
        (get_entry_accounts entryJul)[k]? = some a ∧ o.re a = true ∧
        (∀ (k' : Nat) (a' : Str), k' < k →
          (get_entry_accounts entryJul)[k']? = some a' →
          ∀ o' ∈ [optA10, optB5],
            o'.date < entryJul.date → o'.re a' = false) ∧
        (∀ o' ∈ [optA10, optB5],
          o'.date < entryJul.date → o'.re a = true → o'.date ≤ o.date)) :=
  ⟨rfl, find_insert_position_priority entryJul [optA10, optB5]
    (("main").toList) ['B'] 4 rfl⟩

/-- C7: when no (account, option) combination is eligible — every option
is dated on or after the entry's date or fails to match the account —
the resolver returns `(default_filename, none)`, `insert_entry` appends
a blank separator line and the formatted content at the end of the
default file, leaves every other file unchanged, and returns the options
list unmodified. -/
theorem insert_entry_append_fallback (entry : Entry) (default_filename : Str)
    (insert_options : List InsertEntryOption) (currency_column : Int)
    (fs : Str → Str)
    (h : ∀ a ∈ get_entry_accounts entry, ∀ o ∈ insert_options,
      entry.date ≤ o.date ∨ o.re a = false) :
    find_insert_position entry insert_options default_filename
      = (default_filename, none) ∧
    (insert_entry entry default_filename insert_options currency_column fs).2
      = insert_options ∧
    (insert_entry entry default_filename insert_options currency_column
        fs).1 default_filename
      = fs default_filename ++ '\n' :: _format_entry entry currency_column ∧
    ∀ f : Str, f ≠ default_filename →
      (insert_entry entry default_filename insert_options currency_column
        fs).1 f = fs f := by
  have hfind : find_insert_position entry insert_options default_filename
      = (default_filename, none) := by
    simp only [find_insert_position]
    rw [first_matching_option_none]
    intro a ha
    apply scan_options_none_of_no_match
    intro o hmem
    exact h a ha o ((mem_sort_by_date_desc o insert_options).mp hmem)
  refine ⟨hfind, ?_, ?_, ?_⟩
  · simp only [insert_entry, hfind]
  · simp only [insert_entry, hfind, updateFs]
    simp [flatten_pyReadlines]
  · intro f hf
    simp only [insert_entry, hfind, updateFs]
    simp [hf]

/-- C7 witness: the entry `entryJan` (2020-01-01) is older than the only
rule `optB5` (2020-06-01), so insertion appends to the default file
`main` (which held `"x\n"`) and returns the options unchanged. -/
theorem insert_entry_append_fallback_witness :
    find_insert_position entryJan [optB5] (("main").toList)
      = (("main").toList, none) ∧
    (insert_entry entryJan (("main").toList) [optB5] 61
        (fun _ => ("x\n").toList)).2 = [optB5] ∧
    (insert_entry entryJan (("main").toList) [optB5] 61
        (fun _ => ("x\n").toList)).1 (("main").toList)
      = ("x\n").toList ++ '\n' :: _format_entry entryJan 61 := by
  have hall := insert_entry_append_fallback entryJan (("main").toList)
    [optB5] 61 (fun _ => ("x\n").toList) (by decide)
  exact ⟨hall.1, hall.2.1, hall.2.2.1⟩

/-- C1 (amended): after a successful insertion at the actual 0-indexed
position `P` in file `F`, the returned options are the input options in
order, where exactly those options with `filename = F` and 1-indexed
`lineno > P` (equivalently `lineno − 1 ≥ P`: the recorded line is at or
below the insertion point) have `lineno` incremented by
`addedLines = (newline count of the formatted content) + 1`, and all
others are unchanged. The spec's threshold `lineno > P + 1` is off by
one: the option pointing exactly at the insertion line (`lineno = P + 1`)
is also shifted (see the counterexample). -/
theorem insert_entry_lineshift (entry : Entry) (default_filename F : Str)
    (insert_options : List InsertEntryOption) (currency_column : Int)
    (fs : Str → Str) (P : Int)
    (h : find_insert_position entry insert_options default_filename
      = (F, some P)) :
    (insert_entry entry default_filename insert_options currency_column fs).2
      = insert_options.map (fun option =>
        if option.filename = F ∧ option.lineno > P then
          { option with lineno := option.lineno
            + ((_format_entry entry currency_column).count '\n' + 1) }
        else option) := by
  simp only [insert_entry, h]

/-- C1 counterexample to the claim as stated: a 4-added-lines insertion
at 0-indexed position 4 of file A, routed by `optA5`, the single option
of file A with `lineno = 5 = P + 1`. The claim says every option with
`lineno ≤ P + 1` is unchanged, but the code shifts this option to 9. -/
theorem insert_entry_lineshift_counterexample :
    find_insert_position entryJul3 [optA5] (("main").toList)
      = (['A'], some 4) ∧
    ([optA5].map (fun o => o.lineno)) = [5] ∧
    ((insert_entry entryJul3 (("main").toList) [optA5] 61
        (fun _ => ("1\n2\n3\n4\n5\n6\n").toList)).2).map (fun o => o.lineno)
      = [9] :=
  ⟨rfl, rfl, rfl⟩

/-- C1 witness: the amended statement applied at the counterexample's
input. -/
theorem insert_entry_lineshift_witness :
    (insert_entry entryJul3 (("main").toList) [optA5] 61
        (fun _ => ("1\n2\n3\n4\n5\n6\n").toList)).2
      = [optA5].map (fun option =>
        if option.filename = ['A'] ∧ option.lineno > 4 then
          { option with lineno := option.lineno
            + ((_format_entry entryJul3 61).count '\n' + 1) }
        else option) :=
  insert_entry_lineshift entryJul3 (("main").toList) ['A'] [optA5] 61
    (fun _ => ("1\n2\n3\n4\n5\n6\n").toList) 4 rfl

/-- C10: the resolver is a pure function (it sorts a fresh copy, so the
input list is untouched), and the options list `insert_entry` returns
has the same length and order as its input, each element agreeing with
the corresponding input option on `date`, `re` and `filename` — only
the `lineno` field can differ. -/
theorem insert_entry_frame (entry : Entry) (default_filename : Str)
    (insert_options : List InsertEntryOption) (currency_column : Int)
    (fs : Str → Str) :
    ((insert_entry entry default_filename insert_options currency_column
        fs).2).length = insert_options.length ∧
    ∀ i : Nat,
      ((insert_entry entry default_filename insert_options currency_column
          fs).2)[i]?.map (fun o => o.date) = insert_options[i]?.map (fun o => o.date) ∧
      ((insert_entry entry default_filename insert_options currency_column
          fs).2)[i]?.map (fun o => o.re) = insert_options[i]?.map (fun o => o.re) ∧
      ((insert_entry entry default_filename insert_options currency_column
          fs).2)[i]?.map (fun o => o.filename)
        = insert_options[i]?.map (fun o => o.filename) := by
  simp only [insert_entry]
  cases hpos : (find_insert_position entry insert_options default_filename).2 with
  | none => simp
  | some lineno =>
    refine ⟨by simp, ?_⟩
    intro i
    simp only [List.getElem?_map]
    cases hidx : insert_options[i]? with
    | none => simp
    | some o =>
      by_cases hc : o.filename
          = (find_insert_position entry insert_options default_filename).1
          ∧ o.lineno > lineno
      · simp [hc]
      · simp [hc]

theorem digitChar_toNat (d : Nat) (h : d < 10) :
    (digitChar d).toNat = 48 + d := by
  interval_cases d <;> rfl

/-- Decimal value read back from digit characters. -/
def digitsVal (s : Str) : Nat :=
  s.foldl (fun a c => 10 * a + (c.toNat - 48)) 0

theorem natDigitsCore_append : ∀ (fuel n : Nat) (acc : Str), n < fuel →
    natDigitsCore fuel n acc = natDigitsCore fuel n [] ++ acc := by
  intro fuel
  induction fuel with
  | zero => intro n acc h; exact absurd h (Nat.not_lt_zero n)
  | succ fuel ih =>
    intro n acc h
    by_cases h10 : n < 10
    · simp [natDigitsCore, h10]
    · have hdiv : n / 10 < fuel := by
        have h1 : n / 10 < n := Nat.div_lt_self (by omega) (by omega)
        omega
      simp only [natDigitsCore, h10, if_false]
      rw [ih (n / 10) (digitChar (n % 10) :: acc) hdiv,
        ih (n / 10) [digitChar (n % 10)] hdiv]
      simp

theorem natDigitsCore_fuel : ∀ (fuel fuel' n : Nat) (acc : Str),
    n < fuel → n < fuel' →
    natDigitsCore fuel n acc = natDigitsCore fuel' n acc := by
  intro fuel
  induction fuel with
  | zero => intro fuel' n acc h; exact absurd h (Nat.not_lt_zero n)
  | succ fuel ih =>
    intro fuel' n acc h h'
    cases fuel' with
    | zero => exact absurd h' (Nat.not_lt_zero n)
    | succ fuel'' =>
      by_cases h10 : n < 10
      · simp [natDigitsCore, h10]
      · have hdiv : n / 10 < n := Nat.div_lt_self (by omega) (by omega)
        simp only [natDigitsCore, h10, if_false]
        exact ih fuel'' (n / 10) _ (by omega) (by omega)

/-- Canonical unfolding of the decimal rendering. -/
theorem natDigits_eq (n : Nat) :
    natDigits n = if n < 10 then [digitChar n]
      else natDigits (n / 10) ++ [digitChar (n % 10)] := by
  have hstep : natDigits n = if n < 10 then [digitChar (n % 10)]
      else natDigitsCore n (n / 10) [digitChar (n % 10)] := rfl
  rw [hstep]
  by_cases h10 : n < 10
  · rw [if_pos h10, if_pos h10, Nat.mod_eq_of_lt h10]
  · rw [if_neg h10, if_neg h10]
    rw [natDigitsCore_append n (n / 10) [digitChar (n % 10)] (by omega)]
    congr 1
    unfold natDigits
    exact natDigitsCore_fuel n (n / 10 + 1) (n / 10) [] (by omega) (by omega)

theorem digitsVal_append (s : Str) (c : Char) :
    digitsVal (s ++ [c]) = 10 * digitsVal s + (c.toNat - 48) := by
  simp [digitsVal, List.foldl_append]

theorem digitsVal_natDigits (n : Nat) : digitsVal (natDigits n) = n := by
  induction n using Nat.strong_induction_on with
  | _ n ih =>
    rw [natDigits_eq]
    by_cases h10 : n < 10
    · rw [if_pos h10]
      simp [digitsVal, digitChar_toNat n h10]
    · rw [if_neg h10, digitsVal_append,
        ih (n / 10) (Nat.div_lt_self (by omega) (by omega)),
        digitChar_toNat (n % 10) (Nat.mod_lt n (by omega))]
      omega

theorem natDigits_injective : Function.Injective natDigits := by
  intro a b h
  have := congrArg digitsVal h
  rwa [digitsVal_natDigits, digitsVal_natDigits] at this

theorem format_key_injective (basekey : Str) :
    Function.Injective (format_key basekey) := by
  intro i j h
  unfold format_key at h
  have h2 : '-' :: natDigits i = '-' :: natDigits j :=
    (List.append_right_inj basekey).mp h
  simp only [List.cons.injEq, true_and] at h2
  exact natDigits_injective h2

/-- Pigeonhole: among the first `keys.length + 1` candidate keys
`basekey-2, …` at least one is not in `keys`. -/
theorem exists_free_key (basekey : Str) (keys : List Str) :
    ∃ j, 2 ≤ j ∧ j ≤ keys.length + 2 ∧ format_key basekey j ∉ keys := by
  by_contra hcon
  push_neg at hcon
  have hnodup : ((List.range (keys.length + 1)).map
      (fun t => format_key basekey (2 + t))).Nodup := by
    refine List.Nodup.map ?_ (List.nodup_range _)
    intro t t' ht
    have := format_key_injective basekey ht
    omega
  have hsub : ((List.range (keys.length + 1)).map
      (fun t => format_key basekey (2 + t))).toFinset ⊆ keys.toFinset := by
    intro x hx
    rw [List.mem_toFinset] at hx
    rw [List.mem_toFinset]
    rcases List.mem_map.mp hx with ⟨t, htmem, rfl⟩
    have htlt := List.mem_range.mp htmem
    exact hcon (2 + t) (by omega) (by omega)
  have hcard : ((List.range (keys.length + 1)).map
      (fun t => format_key basekey (2 + t))).toFinset.card = keys.length + 1 := by
    rw [List.toFinset_card_of_nodup hnodup]
    simp
  have h1 := Finset.card_le_card hsub
  have h2 := keys.toFinset_card_le
  omega

theorem next_key_loop_found (basekey : Str) (keys : List Str) :
    ∀ (fuel i : Nat),
    (∃ j, i ≤ j ∧ j ≤ i + fuel ∧ format_key basekey j ∉ keys) →
    ∃ j, i ≤ j ∧ next_key_loop basekey keys fuel i = format_key basekey j ∧
      format_key basekey j ∉ keys ∧
      ∀ m, i ≤ m → m < j → format_key basekey m ∈ keys := by
  intro fuel
  induction fuel with
  | zero =>
    intro i hex
    obtain ⟨j, hij, hle, hfree⟩ := hex
    have hj : j = i := by omega
    subst hj
    exact ⟨j, le_refl j, rfl, hfree,
      fun m h1 h2 => absurd (lt_of_le_of_lt h1 h2) (lt_irrefl j)⟩
  | succ fuel ih =>
    intro i hex
    by_cases hmem : format_key basekey i ∈ keys
    · have hex' : ∃ j, i + 1 ≤ j ∧ j ≤ i + 1 + fuel ∧
          format_key basekey j ∉ keys := by
        obtain ⟨j, hij, hle, hfree⟩ := hex
        refine ⟨j, ?_, by omega, hfree⟩
        rcases Nat.lt_or_ge i j with hlt | hge
        · omega
        · have hj : j = i := by omega
          subst hj
          exact absurd hmem hfree
      obtain ⟨j, hij, heq, hfree, hall⟩ := ih (i + 1) hex'
      refine ⟨j, by omega, ?_, hfree, ?_⟩
      · simp only [next_key_loop, hmem, if_true]
        exact heq
      · intro m h1 h2
        rcases Nat.eq_or_lt_of_le h1 with rfl | hlt
        · exact hmem
        · exact hall m hlt h2
    · refine ⟨i, le_refl i, ?_, hmem,
        fun m h1 h2 => absurd (lt_of_le_of_lt h1 h2) (lt_irrefl i)⟩
      simp only [next_key_loop, hmem, if_false]

/-- C6: `next_key` returns `basekey` itself when it is absent from the
existing keys, and otherwise `basekey-i` for the smallest integer
`i ≥ 2` such that that string is absent. -/
theorem next_key_spec (basekey : Str) (keys : List Str) :
    (basekey ∉ keys → next_key basekey keys = basekey) ∧
    (basekey ∈ keys → ∃ i, 2 ≤ i ∧
      next_key basekey keys = format_key basekey i ∧
      format_key basekey i ∉ keys ∧
      ∀ j, 2 ≤ j → j < i → format_key basekey j ∈ keys) := by
  constructor
  · intro h
    rw [next_key, if_neg h]
  · intro h
    rw [next_key, if_pos h]
    obtain ⟨j0, h2j0, hj0le, hj0free⟩ := exists_free_key basekey keys
    obtain ⟨i, h2i, heq, hfree, hall⟩ := next_key_loop_found basekey keys
      (keys.length + 1) 2 ⟨j0, h2j0, by omega, hj0free⟩
    exact ⟨i, h2i, heq, hfree, fun j hj1 hj2 => hall j hj1 hj2⟩

/-- C6 witness: the three examples of the spec ( `foo` fresh, `foo`
taken, `foo` and `foo-2` taken), the first obtained through the claim's
theorem. -/
theorem next_key_spec_witness :
    next_key (("foo").toList) [] = ("foo").toList ∧
    next_key (("foo").toList) [("foo").toList] = ("foo-2").toList ∧
    next_key (("foo").toList) [("foo").toList, ("foo-2").toList]
      = ("foo-3").toList :=
  ⟨(next_key_spec (("foo").toList) []).1 (by decide), by decide, by decide⟩

/-- C8: inserting metadata below a valid 1-indexed header line yields
exactly the original lines with the single new line
`<indent><key>: "<value>"` (with its newline) inserted at 0-indexed
position `lineno`, where `<indent>` is the leading-whitespace prefix of
the line following the header, with a 2-space fallback when that line
does not exist or has no leading whitespace; no other line changes. -/
theorem insert_metadata_in_file_spec (contents : Str) (lineno : Nat)
    (key value : Str) (h : lineno ≤ (pyReadlines contents).length) :
    insert_metadata_in_file contents lineno key value
      = ((pyReadlines contents).take lineno
        ++ [spec_following_line_indent (pyReadlines contents) lineno
            ++ key ++ ':' :: ' ' :: '"' :: value ++ ['"', '\n']]
        ++ (pyReadlines contents).drop lineno).flatten := by
  have hn : (if (lineno : Int) < 0 then
        (((pyReadlines contents).length : Int) + (lineno : Int)).toNat
      else min (lineno : Int).toNat (pyReadlines contents).length) = lineno := by
    rw [if_neg (by omega)]
    simp only [Int.toNat_natCast]
    omega
  simp only [insert_metadata_in_file, pyInsertAt, spec_following_line_indent,
    leading_space, hn]
  cases hidx : (pyReadlines contents)[lineno]? with
  | none => simp
  | some next_line => simp

/-- C8 witness: inserting `k: "v"` below header line 1 of the file
`"h\n  x\n"`; the following line is indented by two spaces, so the new
line is `  k: "v"`. -/
theorem insert_metadata_in_file_spec_witness :
    insert_metadata_in_file (("h\n  x\n").toList) 1 (("k").toList)
        (("v").toList)
      = ("h\n  k: \"v\"\n  x\n").toList :=
  (insert_metadata_in_file_spec (("h\n  x\n").toList) 1 (("k").toList)
    (("v").toList) (by decide)).trans (by rfl)

end Fava
